import Mathlib

/-!
Verification of the CMake configuration web tool (`cmake_config_tool/app.py`)
against its natural-language specification.

The Python source is shallowly embedded: text is `List Char`, the regex
`option\((\w+)\s+"([^"]+)"\s+(\w+)\)` together with `re.finditer` is modelled
by a deterministic scanner (each quantifier's character class is disjoint from
the character required next, so the backtracking regex engine behaves exactly
like maximal-munch), Python dictionaries are association lists with
insertion-order semantics (inserting an existing key overwrites the value in
place, a new key is appended), fallible external calls (`subprocess.Popen`)
are inputs of type `Except`, and the filesystem is a finite map from directory
paths to entry lists.
-/

namespace CmakeConfigTool

/-- Python `\w` on the ASCII range: letters, digits and underscore.
(The Python regex also accepts non-ASCII word characters; the identifiers and
tokens in play here are ASCII.) -/
def isWordChar (c : Char) : Bool := c.isAlphanum || c == '_'

/-- Python `\s`: the six ASCII whitespace characters. -/
def isSpaceChar (c : Char) : Bool :=
  c == ' ' || c == '\t' || c == '\n' || c == '\r' || c == '\x0b' || c == '\x0c'

/-- The character class `[^"]` of the regex. -/
def notQuote (c : Char) : Bool := c != '"'

/-- The literal `option(` that the regex requires at the start of a match. -/
def optKw : List Char := ("option(").toList

/-- The token whose exact presence makes a default value true
(`match.group(3) == 'ON'` in `read_cmake_options`). -/
def onTok : List Char := ("ON").toList

/-- Strip an expected literal from the front of the input;
`none` when the input does not start with the literal. -/
def stripPfx : List Char → List Char → Option (List Char)
  | [], cs => some cs
  | _ :: _, [] => none
  | p :: ps, c :: cs => if c = p then stripPfx ps cs else none

/-- One-or-more repetition of a character class (`\w+`, `\s+`, `[^"]+`):
the maximal run, failing when it is empty.  Followed in `matchAt` only by
characters outside the class, so maximal munch coincides with the
backtracking regex semantics. -/
def takeWhile1 (p : Char → Bool) (cs : List Char) : Option (List Char × List Char) :=
  if cs.takeWhile p = [] then none else some (cs.takeWhile p, cs.dropWhile p)

/-- Require one literal character. -/
def expectChar (c : Char) : List Char → Option (List Char)
  | [] => none
  | x :: xs => if x = c then some xs else none

/-- Attempt the regex `option\((\w+)\s+"([^"]+)"\s+(\w+)\)` at the start of
the input.  On success returns the three capture groups (identifier,
description, final token) and the remaining input after the match. -/
def matchAt (cs : List Char) : Option (List Char × List Char × List Char × List Char) :=
  (stripPfx optKw cs).bind (fun r0 =>
    (takeWhile1 isWordChar r0).bind (fun p1 =>
      (takeWhile1 isSpaceChar p1.2).bind (fun p2 =>
        (expectChar '"' p2.2).bind (fun r3 =>
          (takeWhile1 notQuote r3).bind (fun p4 =>
            (expectChar '"' p4.2).bind (fun r5 =>
              (takeWhile1 isSpaceChar r5).bind (fun p6 =>
                (takeWhile1 isWordChar p6.2).bind (fun p7 =>
                  (expectChar ')' p7.2).map (fun r8 =>
                    (p1.1, p4.1, p7.1, r8))))))))))

/-- `re.finditer` over the text, fuelled (every step consumes at least one
character, so `cs.length` fuel suffices): at each position attempt a match;
on success emit its groups and resume after the match, otherwise advance one
character. -/
def findAllFuel : Nat → List Char → List (List Char × List Char × List Char)
  | 0, _ => []
  | _ + 1, [] => []
  | f + 1, c :: cs =>
    match matchAt (c :: cs) with
    | some (nm, dsc, tk, rest) => (nm, dsc, tk) :: findAllFuel f rest
    | none => findAllFuel f cs

/-- All matches of the option regex in the text, in order of position. -/
def findAll (cs : List Char) : List (List Char × List Char × List Char) :=
  findAllFuel cs.length cs

/-- The value stored per option: `{'description': ..., 'value': ...}`. -/
structure OptEntry where
  description : List Char
  value : Bool
deriving DecidableEq

/-- Lookup in an association list (Python `d[k]` / `k in d`). -/
def lookupA : List (List Char × β) → List Char → Option β
  | [], _ => none
  | (k', v) :: rest, k => if k = k' then some v else lookupA rest k

/-- Python `k in d`. -/
def containsKey (d : List (List Char × β)) (k : List Char) : Bool :=
  (lookupA d k).isSome

/-- Python `d[k] = v` on an insertion-ordered dictionary: an existing key has
its value overwritten in place (keeping its position), a new key is appended
at the end. -/
def dictInsert (d : List (List Char × β)) (k : List Char) (v : β) : List (List Char × β) :=
  if containsKey d k then d.map (fun p => if p.1 = k then (k, v) else p)
  else d ++ [(k, v)]

/-- The dictionary value built from one regex match in `read_cmake_options`:
description is group 2 and the default is true iff group 3 is exactly `ON`. -/
def toEntry (m : List Char × List Char × List Char) : OptEntry :=
  ⟨m.2.1, m.2.2 == onTok⟩

/-- The `for match in matches: options[option_name] = ...` loop. -/
def dictFold (ms : List (List Char × List Char × List Char)) : List (List Char × OptEntry) :=
  ms.foldl (fun acc m => dictInsert acc m.1 (toEntry m)) []

/-- `read_cmake_options`, as a function of the configuration text it reads:
scan all matches of the option regex and build the options dictionary. -/
def read_cmake_options (content : List Char) : List (List Char × OptEntry) :=
  dictFold (findAll content)

example :
    read_cmake_options (("option(FOO \"enable foo\" ON)\noption(BAR \"enable bar\" OFF)").toList) =
      [(("FOO").toList, ⟨("enable foo").toList, true⟩),
       (("BAR").toList, ⟨("enable bar").toList, false⟩)] := by
  decide

/-! ### Well-formed option declarations -/

/-- The pieces of one well-formed `option(...)` declaration: identifier,
the whitespace runs, quoted description and final token. -/
structure Decl where
  name : List Char
  ws1 : List Char
  desc : List Char
  ws2 : List Char
  tok : List Char
deriving DecidableEq

/-- The declaration as text: `option(` name ws1 `"` desc `"` ws2 tok `)`. -/
def Decl.render (d : Decl) : List Char :=
  optKw ++ (d.name ++ (d.ws1 ++ ('"' :: (d.desc ++ ('"' :: (d.ws2 ++ (d.tok ++ [')'])))))))

/-- Well-formedness: nonempty identifier and token of word characters,
nonempty whitespace runs, nonempty quote-free description — exactly the
texts the regex recognises. -/
abbrev Decl.wf (d : Decl) : Prop :=
  d.name ≠ [] ∧ (∀ c ∈ d.name, isWordChar c = true) ∧
  d.ws1 ≠ [] ∧ (∀ c ∈ d.ws1, isSpaceChar c = true) ∧
  d.desc ≠ [] ∧ (∀ c ∈ d.desc, notQuote c = true) ∧
  d.ws2 ≠ [] ∧ (∀ c ∈ d.ws2, isSpaceChar c = true) ∧
  d.tok ≠ [] ∧ (∀ c ∈ d.tok, isWordChar c = true)

/-! ### Basic lemmas about the matching primitives -/

theorem stripPfx_some_iff {ps cs r : List Char} :
    stripPfx ps cs = some r ↔ cs = ps ++ r := by
  induction ps generalizing cs with
  | nil => simp [stripPfx]
  | cons p ps ih =>
    cases cs with
    | nil => simp [stripPfx]
    | cons c cs =>
      by_cases h : c = p
      · subst h
        simp [stripPfx, ih]
      · simp [stripPfx, h, fun h' : p = c => h h'.symm]

theorem stripPfx_append (ps t : List Char) : stripPfx ps (ps ++ t) = some t :=
  stripPfx_some_iff.mpr rfl

theorem takeWhile_all_append {p : Char → Bool} {xs : List Char} (y : Char) (ys : List Char)
    (hall : ∀ c ∈ xs, p c = true) (hy : p y = false) :
    (xs ++ y :: ys).takeWhile p = xs := by
  induction xs with
  | nil => simp [List.takeWhile_cons, hy]
  | cons x xs ih =>
    simp only [List.cons_append, List.takeWhile_cons, hall x (by simp)]
    simp [ih (fun c hc => hall c (by simp [hc]))]

theorem dropWhile_all_append {p : Char → Bool} {xs : List Char} (y : Char) (ys : List Char)
    (hall : ∀ c ∈ xs, p c = true) (hy : p y = false) :
    (xs ++ y :: ys).dropWhile p = y :: ys := by
  induction xs with
  | nil => simp [List.dropWhile_cons, hy]
  | cons x xs ih =>
    simp only [List.cons_append, List.dropWhile_cons, hall x (by simp)]
    simp [ih (fun c hc => hall c (by simp [hc]))]

theorem takeWhile1_append {p : Char → Bool} {xs : List Char} (y : Char) (ys : List Char)
    (hne : xs ≠ []) (hall : ∀ c ∈ xs, p c = true) (hy : p y = false) :
    takeWhile1 p (xs ++ y :: ys) = some (xs, y :: ys) := by
  rw [takeWhile1, takeWhile_all_append y ys hall hy, dropWhile_all_append y ys hall hy,
    if_neg hne]

theorem takeWhile1_eq_some {p : Char → Bool} {cs t r : List Char}
    (h : takeWhile1 p cs = some (t, r)) : t ≠ [] ∧ cs = t ++ r := by
  rw [takeWhile1] at h
  split at h
  · exact absurd h (by simp)
  · rename_i hne
    obtain ⟨h1, h2⟩ := Prod.mk.injEq .. ▸ Option.some.injEq .. ▸ h
    refine ⟨h1 ▸ hne, ?_⟩
    rw [← h1, ← h2, List.takeWhile_append_dropWhile]

theorem expectChar_eq_some {c : Char} {cs r : List Char}
    (h : expectChar c cs = some r) : cs = c :: r := by
  cases cs with
  | nil => exact absurd h (by simp [expectChar])
  | cons x xs =>
    rw [expectChar] at h
    split at h
    · rename_i hx
      cases h
      exact hx ▸ rfl
    · exact absurd h (by simp)

/-- A space character is not a word character. -/
theorem space_not_word {c : Char} (h : isSpaceChar c = true) : isWordChar c = false := by
  rw [isSpaceChar] at h
  simp only [Bool.or_eq_true, beq_iff_eq] at h
  rcases h with ((((h | h) | h) | h) | h) | h <;> subst h <;> decide

/-- A word character is not a space character. -/
theorem word_not_space {c : Char} (h : isWordChar c = true) : isSpaceChar c = false := by
  cases hs : isSpaceChar c with
  | false => rfl
  | true => rw [space_not_word hs] at h; cases h

theorem takeWhile1_cons_append {p : Char → Bool} (x : Char) (xs : List Char)
    (y : Char) (ys : List Char)
    (hall : ∀ c ∈ x :: xs, p c = true) (hy : p y = false) :
    takeWhile1 p (x :: (xs ++ y :: ys)) = some (x :: xs, y :: ys) :=
  takeWhile1_append y ys (by simp) hall hy

theorem expectChar_cons_self (c : Char) (xs : List Char) :
    expectChar c (c :: xs) = some xs := by
  simp [expectChar]

/-- `matchAt` at the start of a well-formed declaration succeeds, captures the
declaration's identifier, description and token, and consumes exactly the
declaration — whatever text follows. -/
theorem matchAt_render (d : Decl) (hd : d.wf) (t : List Char) :
    matchAt (d.render ++ t) = some (d.name, d.desc, d.tok, t) := by
  obtain ⟨nm, ws1, dsc, ws2, tk⟩ := d
  obtain ⟨hn, hnw, hw1ne, hw1s, hdne, hdq, hw2ne, hw2s, htkne, htkw⟩ := hd
  dsimp only at hn hnw hw1ne hw1s hdne hdq hw2ne hw2s htkne htkw ⊢
  cases ws1 with
  | nil => exact absurd rfl hw1ne
  | cons w1 ws1' =>
  cases tk with
  | nil => exact absurd rfl htkne
  | cons tk0 tk' =>
  have hre : Decl.render ⟨nm, w1 :: ws1', dsc, ws2, tk0 :: tk'⟩ ++ t =
      optKw ++ (nm ++ (w1 :: (ws1' ++ ('"' ::
        (dsc ++ ('"' :: (ws2 ++ (tk0 :: (tk' ++ (')' :: t)))))))))) := by
    simp [Decl.render]
  rw [hre, matchAt, stripPfx_append, Option.some_bind]
  rw [takeWhile1_append w1 _ hn hnw (space_not_word (hw1s w1 (by simp))), Option.some_bind]
  dsimp only
  rw [takeWhile1_cons_append w1 ws1' '"' _ hw1s (by decide), Option.some_bind]
  dsimp only
  rw [expectChar_cons_self, Option.some_bind]
  rw [takeWhile1_append '"' _ hdne hdq (by decide), Option.some_bind]
  dsimp only
  rw [expectChar_cons_self, Option.some_bind]
  rw [takeWhile1_append tk0 _ hw2ne hw2s (word_not_space (htkw tk0 (by simp))),
    Option.some_bind]
  dsimp only
  rw [takeWhile1_cons_append tk0 tk' ')' _ htkw (by decide), Option.some_bind]
  dsimp only
  rw [expectChar_cons_self]
  rfl

theorem takeWhile1_pair {p : Char → Bool} {cs : List Char} {pr : List Char × List Char}
    (h : takeWhile1 p cs = some pr) : pr.1 ≠ [] ∧ cs = pr.1 ++ pr.2 := by
  obtain ⟨t, r⟩ := pr
  exact takeWhile1_eq_some h

theorem takeWhile1_len {p : Char → Bool} {cs : List Char} {pr : List Char × List Char}
    (h : takeWhile1 p cs = some pr) : pr.2.length ≤ cs.length := by
  rw [(takeWhile1_pair h).2, List.length_append]
  omega

theorem expectChar_len {c : Char} {cs r : List Char}
    (h : expectChar c cs = some r) : r.length < cs.length := by
  rw [expectChar_eq_some h]
  simp

/-- A successful match consumes at least one character (in fact at least the
keyword), so the scan terminates. -/
theorem matchAt_length {cs nm dsc tk rest : List Char}
    (h : matchAt cs = some (nm, dsc, tk, rest)) : rest.length < cs.length := by
  rw [matchAt] at h
  simp only [Option.bind_eq_some, Option.map_eq_some'] at h
  obtain ⟨r0, h0, p1, h1, p2, h2, r3, h3, p4, h4, r5, h5, p6, h6, p7, h7, r8, h8, heq⟩ := h
  have h9 : r8 = rest := congrArg (fun q => q.2.2.2) heq
  have l0 : r0.length < cs.length := by
    rw [stripPfx_some_iff.mp h0, List.length_append]
    have : 0 < optKw.length := by decide
    omega
  have l1 := takeWhile1_len h1
  have l2 := takeWhile1_len h2
  have l3 := expectChar_len h3
  have l4 := takeWhile1_len h4
  have l5 := expectChar_len h5
  have l6 := takeWhile1_len h6
  have l7 := takeWhile1_len h7
  have l8 := expectChar_len h8
  rw [← h9]
  omega

/-! ### The scan -/

theorem findAllFuel_nil (f : Nat) : findAllFuel f [] = [] := by
  cases f <;> rfl

theorem findAllFuel_congr :
    ∀ f g (cs : List Char), cs.length ≤ f → cs.length ≤ g →
      findAllFuel f cs = findAllFuel g cs := by
  intro f
  induction f with
  | zero =>
    intro g cs hf _
    rw [List.length_eq_zero.mp (Nat.le_zero.mp hf)]
    rw [findAllFuel_nil, findAllFuel_nil]
  | succ f ih =>
    intro g cs hf hg
    cases cs with
    | nil => rw [findAllFuel_nil, findAllFuel_nil]
    | cons c cs' =>
      cases g with
      | zero => simp at hg
      | succ g' =>
        rw [findAllFuel, findAllFuel]
        cases hm : matchAt (c :: cs') with
        | none =>
          simp only [List.length_cons] at hf hg
          exact ih g' cs' (by omega) (by omega)
        | some r =>
          obtain ⟨nm, dsc, tk, rest⟩ := r
          have hl := matchAt_length hm
          simp only [List.length_cons] at hf hg hl
          dsimp only
          rw [ih g' rest (by omega) (by omega)]

theorem findAll_nil : findAll [] = [] := rfl

theorem findAll_cons_match {c : Char} {cs nm dsc tk rest : List Char}
    (h : matchAt (c :: cs) = some (nm, dsc, tk, rest)) :
    findAll (c :: cs) = (nm, dsc, tk) :: findAll rest := by
  rw [findAll, List.length_cons, findAllFuel, h]
  have hl := matchAt_length h
  simp only [List.length_cons] at hl
  dsimp only
  rw [findAllFuel_congr cs.length rest.length rest (by omega) (by omega)]
  rfl

theorem findAll_cons_none {c : Char} {cs : List Char}
    (h : matchAt (c :: cs) = none) : findAll (c :: cs) = findAll cs := by
  rw [findAll, List.length_cons, findAllFuel, h]
  rfl

/-- If the input does not start with the literal `option(`, the match fails. -/
theorem matchAt_none_of_strip {cs : List Char}
    (h : stripPfx optKw cs = none) : matchAt cs = none := by
  rw [matchAt, h]
  rfl

/-- Text without a `(` cannot start with the literal `option(`. -/
theorem stripPfx_none_of_no_paren {cs : List Char}
    (h : ('(' : Char) ∉ cs) : stripPfx optKw cs = none := by
  cases hs : stripPfx optKw cs with
  | none => rfl
  | some r =>
    rw [stripPfx_some_iff.mp hs] at h
    exact absurd (by simp [optKw]) h

/-- Scanning text without any `(` finds nothing. -/
theorem findAll_no_paren {cs : List Char} (h : ('(' : Char) ∉ cs) : findAll cs = [] := by
  induction cs with
  | nil => exact findAll_nil
  | cons c cs' ih =>
    rw [findAll_cons_none (matchAt_none_of_strip (stripPfx_none_of_no_paren h))]
    exact ih (fun hc => h (by simp [hc]))

/-- Inside a `(`-free junk segment followed by text that starts with the
literal `option(`, no match can begin: the junk cannot supply the `(` of the
keyword, and no proper suffix of the keyword is one of its prefixes, so the
keyword cannot straddle the boundary either. -/
theorem stripPfx_fail_junk (c : Char) (j X : List Char)
    (hj : ('(' : Char) ∉ c :: j) :
    stripPfx optKw ((c :: j) ++ (optKw ++ X)) = none := by
  cases hs : stripPfx optKw ((c :: j) ++ (optKw ++ X)) with
  | none => rfl
  | some r =>
    exfalso
    have he := stripPfx_some_iff.mp hs
    simp only [List.cons_append] at he
    rw [show optKw = 'o' :: 'p' :: 't' :: 'i' :: 'o' :: 'n' :: '(' :: [] from rfl] at he
    simp only [List.cons_append, List.nil_append, List.cons.injEq] at he
    obtain ⟨rfl, he⟩ := he
    cases j with
    | nil =>
      simp only [List.nil_append, optKw] at he
      simp at he
    | cons c2 j =>
      simp only [List.cons_append, List.cons.injEq] at he
      obtain ⟨rfl, he⟩ := he
      cases j with
      | nil =>
        simp only [List.nil_append, optKw] at he
        simp at he
      | cons c3 j =>
        simp only [List.cons_append, List.cons.injEq] at he
        obtain ⟨rfl, he⟩ := he
        cases j with
        | nil =>
          simp only [List.nil_append, optKw] at he
          simp at he
        | cons c4 j =>
          simp only [List.cons_append, List.cons.injEq] at he
          obtain ⟨rfl, he⟩ := he
          cases j with
          | nil =>
            simp only [List.nil_append, optKw] at he
            simp at he
          | cons c5 j =>
            simp only [List.cons_append, List.cons.injEq] at he
            obtain ⟨rfl, he⟩ := he
            cases j with
            | nil =>
              simp only [List.nil_append, optKw] at he
              simp at he
            | cons c6 j =>
              simp only [List.cons_append, List.cons.injEq] at he
              obtain ⟨rfl, he⟩ := he
              cases j with
              | nil =>
                simp only [List.nil_append, optKw] at he
                simp at he
              | cons c7 j =>
                simp only [List.cons_append, List.cons.injEq] at he
                obtain ⟨rfl, -⟩ := he
                exact hj (by simp)

/-- Scanning skips a `(`-free junk segment that precedes a declaration. -/
theorem findAll_junk_append {j : List Char} (hj : ('(' : Char) ∉ j) (X : List Char) :
    findAll (j ++ (optKw ++ X)) = findAll (optKw ++ X) := by
  induction j with
  | nil => rw [List.nil_append]
  | cons c j' ih =>
    have hm : matchAt ((c :: j') ++ (optKw ++ X)) = none :=
      matchAt_none_of_strip (stripPfx_fail_junk c j' X hj)
    rw [List.cons_append] at hm ⊢
    rw [findAll_cons_none hm]
    exact ih (fun hc => hj (by simp [hc]))

/-! ### Structured configuration texts -/

/-- A configuration text presented as alternating junk segments and
well-formed declarations, with a trailing junk segment. -/
def renderSeq : List (List Char × Decl) → List Char → List Char
  | [], tl => tl
  | (j, d) :: ps, tl => j ++ (d.render ++ renderSeq ps tl)

/-- The discipline under which the scan is fully characterised: every junk
segment (the malformed text between declarations, and the trailer) is free of
`(`, and every declaration is well-formed. -/
abbrev GoodSeq (ps : List (List Char × Decl)) (tl : List Char) : Prop :=
  (∀ p ∈ ps, ('(' : Char) ∉ p.1 ∧ p.2.wf) ∧ ('(' : Char) ∉ tl

theorem findAll_match {cs nm dsc tk rest : List Char}
    (h : matchAt cs = some (nm, dsc, tk, rest)) :
    findAll cs = (nm, dsc, tk) :: findAll rest := by
  cases cs with
  | nil =>
    rw [matchAt, show stripPfx optKw [] = none from rfl] at h
    simp at h
  | cons c cs' => exact findAll_cons_match h

/-- On a structured text the scan returns exactly the declarations'
capture groups, in order; junk contributes nothing. -/
theorem findAll_renderSeq (ps : List (List Char × Decl)) (tl : List Char)
    (h : GoodSeq ps tl) :
    findAll (renderSeq ps tl) = ps.map (fun p => (p.2.name, p.2.desc, p.2.tok)) := by
  induction ps with
  | nil => exact findAll_no_paren h.2
  | cons q ps ih =>
    obtain ⟨j, d⟩ := q
    obtain ⟨hall, htl⟩ := h
    have hq := hall (j, d) (by simp)
    have hren : d.render ++ renderSeq ps tl =
        optKw ++ ((d.name ++ (d.ws1 ++ ('"' :: (d.desc ++ ('"' :: (d.ws2 ++
          (d.tok ++ [')']))))))) ++ renderSeq ps tl) := by
      simp [Decl.render]
    rw [renderSeq, hren, findAll_junk_append hq.1 _, ← hren,
      findAll_match (matchAt_render d hq.2 (renderSeq ps tl)), List.map_cons]
    exact congrArg _ (ih ⟨fun p hp => hall p (by simp [hp]), htl⟩)

/-! ### Dictionary semantics -/

theorem lookupA_append (a b : List (List Char × β)) (k : List Char) :
    lookupA (a ++ b) k = match lookupA a k with
      | some v => some v
      | none => lookupA b k := by
  induction a with
  | nil => rw [List.nil_append]; rfl
  | cons p a ih =>
    obtain ⟨k', v⟩ := p
    by_cases h : k = k' <;> simp [lookupA, h, ih]

theorem containsKey_false_iff (d : List (List Char × β)) (k : List Char) :
    containsKey d k = false ↔ lookupA d k = none := by
  cases h : lookupA d k <;> simp [containsKey, h]

/-- Folding matches with pairwise distinct identifiers into a dictionary
whose keys are all fresh appends one entry per match, in order. -/
theorem dictFold_go_nodup (ms : List (List Char × List Char × List Char)) :
    ∀ acc : List (List Char × OptEntry),
      (ms.map (fun m => m.1)).Nodup →
      (∀ m ∈ ms, containsKey acc m.1 = false) →
      ms.foldl (fun acc m => dictInsert acc m.1 (toEntry m)) acc =
        acc ++ ms.map (fun m => (m.1, toEntry m)) := by
  induction ms with
  | nil => intro acc _ _; simp
  | cons m ms ih =>
    intro acc hnd hfresh
    rw [List.map_cons, List.nodup_cons] at hnd
    rw [List.foldl_cons, dictInsert, if_neg (by simp [hfresh m (by simp)])]
    rw [ih (acc ++ [(m.1, toEntry m)]) hnd.2 ?fresh]
    · simp
    case fresh =>
      intro m' hm'
      have hne : ¬m'.1 = m.1 := by
        intro hc
        exact hnd.1 (hc ▸ List.mem_map_of_mem (fun m => m.1) hm')
      refine (containsKey_false_iff _ _).mpr ?_
      rw [lookupA_append, (containsKey_false_iff _ _).mp (hfresh m' (by simp [hm']))]
      simp [lookupA, hne]

/-- Value replacement for an existing key leaves every other key's binding
unchanged. -/
theorem lookupA_map_replace_ne {d : List (List Char × β)} {k k' : List Char} {v : β}
    (h : k' ≠ k) :
    lookupA (d.map (fun p => if p.1 = k then (k, v) else p)) k' = lookupA d k' := by
  induction d with
  | nil => rfl
  | cons p d ih =>
    obtain ⟨k0, v0⟩ := p
    rw [List.map_cons]
    dsimp only
    by_cases h0 : k0 = k
    · subst h0
      rw [if_pos rfl, lookupA, lookupA, if_neg h, if_neg h, ih]
    · rw [if_neg h0, lookupA, lookupA]
      by_cases hk : k' = k0
      · rw [if_pos hk, if_pos hk]
      · rw [if_neg hk, if_neg hk, ih]

/-- Value replacement for a present key makes its binding the new value. -/
theorem lookupA_map_replace_self {d : List (List Char × β)} {k : List Char} {v : β}
    (hc : (lookupA d k).isSome = true) :
    lookupA (d.map (fun p => if p.1 = k then (k, v) else p)) k = some v := by
  induction d with
  | nil => simp [lookupA] at hc
  | cons p d ih =>
    obtain ⟨k0, v0⟩ := p
    rw [List.map_cons]
    dsimp only
    by_cases h0 : k0 = k
    · subst h0
      rw [if_pos rfl, lookupA, if_pos rfl]
    · have hk0 : ¬k = k0 := fun hx => h0 hx.symm
      rw [lookupA, if_neg hk0] at hc
      rw [if_neg h0, lookupA, if_neg hk0]
      exact ih hc

/-- `d[k] = v` then `d[k']` — the defining property of dictionary update. -/
theorem lookupA_dictInsert (d : List (List Char × β)) (k : List Char) (v : β)
    (k' : List Char) :
    lookupA (dictInsert d k v) k' = if k' = k then some v else lookupA d k' := by
  cases hc : containsKey d k with
  | false =>
    have hnone := (containsKey_false_iff d k).mp hc
    rw [dictInsert, if_neg (by simp [hc]), lookupA_append]
    by_cases hk : k' = k
    · subst hk
      rw [hnone, if_pos rfl]
      simp [lookupA]
    · rw [if_neg hk]
      cases h' : lookupA d k' with
      | none => simp [lookupA, hk]
      | some w => simp
  | true =>
    rw [dictInsert, if_pos (by simp [hc])]
    by_cases hk : k' = k
    · subst hk
      rw [if_pos rfl]
      exact lookupA_map_replace_self hc
    · rw [if_neg hk]
      exact lookupA_map_replace_ne hk

/-! ### Key order and last-value semantics of the options dictionary -/

/-- Deduplication keeping the first occurrence of each key: the key order of
a Python dictionary built by repeated assignment. -/
def firstKeys (seen : List (List Char)) : List (List Char) → List (List Char)
  | [] => []
  | k :: ks => if k ∈ seen then firstKeys seen ks else k :: firstKeys (k :: seen) ks

/-- The entry produced by the last match with the given identifier, if any. -/
def lastMatchVal : List (List Char × List Char × List Char) → List Char → Option OptEntry
  | [], _ => none
  | m :: ms, k =>
    match lastMatchVal ms k with
    | some v => some v
    | none => if k = m.1 then some (toEntry m) else none

theorem map_fst_dictInsert (d : List (List Char × β)) (k : List Char) (v : β) :
    (dictInsert d k v).map Prod.fst =
      if containsKey d k then d.map Prod.fst else d.map Prod.fst ++ [k] := by
  cases hc : containsKey d k with
  | true =>
    rw [dictInsert, if_pos (by simp [hc]), if_pos (by simp [hc]), List.map_map]
    refine List.map_congr_left ?_
    intro p _
    by_cases hp : p.1 = k
    · simp [Function.comp, hp]
    · simp [Function.comp, hp]
  | false =>
    rw [dictInsert, if_neg (by simp [hc]), if_neg (by simp [hc])]
    simp

theorem lookupA_isSome_iff_mem (d : List (List Char × β)) (k : List Char) :
    (lookupA d k).isSome = true ↔ k ∈ d.map Prod.fst := by
  induction d with
  | nil => simp [lookupA]
  | cons p d ih =>
    obtain ⟨k0, v0⟩ := p
    rw [List.map_cons, List.mem_cons, lookupA]
    by_cases hk : k = k0
    · rw [if_pos hk]
      exact iff_of_true rfl (Or.inl hk)
    · rw [if_neg hk, ih]
      exact (or_iff_right hk).symm

theorem containsKey_iff_mem (d : List (List Char × β)) (k : List Char) :
    containsKey d k = true ↔ k ∈ d.map Prod.fst :=
  lookupA_isSome_iff_mem d k

theorem firstKeys_congr {s1 s2 : List (List Char)} (h : ∀ x, x ∈ s1 ↔ x ∈ s2) :
    ∀ l, firstKeys s1 l = firstKeys s2 l := by
  intro l
  induction l generalizing s1 s2 with
  | nil => rfl
  | cons k ks ih =>
    by_cases hk : k ∈ s1
    · rw [firstKeys, if_pos hk, firstKeys, if_pos ((h k).mp hk)]
      exact ih h
    · rw [firstKeys, if_neg hk, firstKeys, if_neg (fun hx => hk ((h k).mpr hx))]
      refine congrArg _ (ih ?_)
      intro x
      simp [h x]

theorem firstKeys_nodup : ∀ (l : List (List Char)) (seen : List (List Char)),
    (firstKeys seen l).Nodup ∧ ∀ x ∈ firstKeys seen l, x ∉ seen := by
  intro l
  induction l with
  | nil => intro seen; simp [firstKeys]
  | cons k ks ih =>
    intro seen
    by_cases hk : k ∈ seen
    · rw [firstKeys, if_pos hk]
      exact ih seen
    · rw [firstKeys, if_neg hk]
      obtain ⟨hnd, hout⟩ := ih (k :: seen)
      refine ⟨List.nodup_cons.mpr ⟨fun hc => (hout k hc) (by simp), hnd⟩, ?_⟩
      intro x hx
      rcases List.mem_cons.mp hx with rfl | hx'
      · exact hk
      · exact fun hs => hout x hx' (by simp [hs])

theorem dictFold_keys (ms : List (List Char × List Char × List Char)) :
    ∀ acc : List (List Char × OptEntry),
      (ms.foldl (fun acc m => dictInsert acc m.1 (toEntry m)) acc).map Prod.fst =
        acc.map Prod.fst ++ firstKeys (acc.map Prod.fst) (ms.map (fun m => m.1)) := by
  induction ms with
  | nil => intro acc; simp [firstKeys]
  | cons m ms ih =>
    intro acc
    rw [List.foldl_cons, ih, map_fst_dictInsert, List.map_cons, firstKeys]
    cases hc : containsKey acc m.1 with
    | true =>
      rw [if_pos (by simp [hc]), if_pos ((containsKey_iff_mem acc m.1).mp hc)]
    | false =>
      have hmem : m.1 ∉ acc.map Prod.fst := fun hx => by
        rw [(containsKey_iff_mem acc m.1).mpr hx] at hc
        cases hc
      have hiff : ∀ x : List Char,
          x ∈ acc.map Prod.fst ++ [m.1] ↔ x ∈ m.1 :: acc.map Prod.fst := fun x => by
        rw [List.mem_cons, List.mem_append, List.mem_singleton]
        exact or_comm
      rw [if_neg (by simp [hc]), if_neg hmem,
        firstKeys_congr hiff (ms.map fun m => m.1),
        List.append_assoc, List.singleton_append]

theorem dictFold_lookup (ms : List (List Char × List Char × List Char)) :
    ∀ (acc : List (List Char × OptEntry)) (k : List Char),
      lookupA (ms.foldl (fun acc m => dictInsert acc m.1 (toEntry m)) acc) k =
        match lastMatchVal ms k with
        | some v => some v
        | none => lookupA acc k := by
  induction ms with
  | nil => intro acc k; rfl
  | cons m ms ih =>
    intro acc k
    rw [List.foldl_cons, ih, lastMatchVal]
    cases hl : lastMatchVal ms k with
    | some v => rfl
    | none =>
      rw [lookupA_dictInsert]
      by_cases hk : k = m.1
      · rw [if_pos hk]
        simp [hk]
      · rw [if_neg hk]
        simp [hk]

/-! ### The index handler's merge of scanner output with the saved snapshot -/

/-- The merge loop of the `index` handler:
`for key in options: if key in saved_options: options[key]['value'] = saved_options[key]['value']`.
A `saved` of `none` models `load_saved_options` returning `None`; Python's
truthiness test `if saved_options:` also skips the loop for an empty dict,
which coincides with mapping over an empty lookup. -/
def mergeSaved (options : List (List Char × OptEntry))
    (saved : Option (List (List Char × OptEntry))) : List (List Char × OptEntry) :=
  match saved with
  | none => options
  | some s =>
    if s = [] then options
    else options.map (fun p =>
      match lookupA s p.1 with
      | some sv => (p.1, ⟨p.2.description, sv.value⟩)
      | none => p)

/-! ### The apply handler -/

def successStatus : List Char := ("success").toList
def errorStatus : List Char := ("error").toList

/-- The flag built for one option in `apply`:
`f'-D{key}={value["value"] and "ON" or "OFF"}'`. -/
def optFlag (p : List Char × OptEntry) : List Char :=
  ("-D").toList ++ p.1 ++ ("=").toList ++
    (if p.2.value then ("ON").toList else ("OFF").toList)

/-- The full argument vector of the configure invocation:
`['cmake', project_dir] + [-D... for each option]`. -/
def cmake_cmd (project_dir : List Char) (options : List (List Char × OptEntry)) :
    List (List Char) :=
  ("cmake").toList :: project_dir :: options.map optFlag

/-- The `apply` handler's interaction with the child process, inside its
`try`/`except`: the `Except` input is the outcome of launching and running
the process (`.error` models the exception raised by `Popen` when the binary
or directory is missing, `.ok` carries the captured output lines and exit
code).  The result is the JSON payload `(status, output)`; the `except`
branch makes the function total — no error escapes it. -/
def apply_handler (popen : Except (List Char) (List (List Char) × Int)) :
    List Char × List Char :=
  match popen with
  | .error e => (errorStatus, e)
  | .ok (outLines, rc) =>
    ((if rc = 0 then successStatus else errorStatus), outLines.flatten)

/-! ### The build handler's streaming generator -/

def successSentinel : List Char := ("\nBuild completed successfully!\n").toList
def failSentinel : List Char := ("\nBuild failed with errors.\n").toList

/-- The `generate` inner function of the `build` handler.  Unlike `apply`,
`generate` contains no `try`/`except`; the `Except` input is again the
outcome of the `Popen` call, and an `.error` (the launch exception)
propagates out of the generator unhandled — hence the `Except` result type.
On success the yielded stream is the process output followed by exactly one
sentinel line chosen by the exit code. -/
def generate (popen : Except (List Char) (List (List Char) × Int)) :
    Except (List Char) (List (List Char)) :=
  match popen with
  | .error e => .error e
  | .ok (ls, rc) => .ok (ls ++ [if rc = 0 then successSentinel else failSentinel])

/-! ### The settings store -/

/-- `save_cmake_options`: serialize the mapping to `cmake_config.yaml`,
overwriting any previous content.  The store state is the abstract content
of that file (`none` = file absent); the YAML encoding is abstracted as a
faithful serialization. -/
def save_cmake_options (options : List (List Char × OptEntry))
    (_store : Option (List (List Char × OptEntry))) :
    Option (List (List Char × OptEntry)) :=
  some options

/-- `load_saved_options`: return the saved mapping, or `None` when the file
does not exist. -/
def load_saved_options (store : Option (List (List Char × OptEntry))) :
    Option (List (List Char × OptEntry)) :=
  store

/-! ### The filesystem and the build directory -/

/-- A filesystem restricted to what the handlers touch: a finite map from
existing directory paths to the (immediate) entries they contain.  Paths are
plain strings; a path `q` lies inside a directory `p` when `p ++ "/"` is a
prefix of `q`. -/
abbrev FS := List (List Char × List (List Char))

/-- The environment consulted by `get_build_dir`:
`os.environ.get('TEMP', os.path.expanduser('~'))`. -/
structure Env where
  temp : Option (List Char)
  home : List Char

def fsExists (fs : FS) (p : List Char) : Bool := (lookupA fs p).isSome

def isUnder (base q : List Char) : Bool := (base ++ [('/' : Char)]).isPrefixOf q

/-- `os.makedirs(p, exist_ok=True)`: create the directory if absent. -/
def makedirs_exist_ok (fs : FS) (p : List Char) : FS :=
  if fsExists fs p then fs else fs ++ [(p, [])]

/-- `os.makedirs(p)` without `exist_ok`: fails if the directory exists. -/
def makedirs_strict (fs : FS) (p : List Char) : Except (List Char) FS :=
  if fsExists fs p then .error (("FileExistsError").toList)
  else .ok (fs ++ [(p, [])])

/-- `shutil.rmtree(p)`: recursively remove the directory and everything
under it.  The `removable` flag models environmental failure (e.g. a locked
file), in which case the raised exception is the `.error` result. -/
def rmtree (fs : FS) (p : List Char) (removable : Bool) : Except (List Char) FS :=
  if fsExists fs p then
    if removable then .ok (fs.filter (fun q => !(q.1 == p || isUnder p q.1)))
    else .error (("PermissionError").toList)
  else .error (("FileNotFoundError").toList)

/-- The fixed build directory path:
`os.path.join(os.environ.get('TEMP', os.path.expanduser('~')), 'aimrt_build')`. -/
def buildDirPath (env : Env) : List Char :=
  (match env.temp with | some t => t | none => env.home) ++
    ('/' :: ("aimrt_build").toList)

/-- `get_build_dir`: compute the fixed path and ensure it exists
(`os.makedirs(build_dir, exist_ok=True)`), returning both. -/
def get_build_dir (env : Env) (fs : FS) : List Char × FS :=
  (buildDirPath env, makedirs_exist_ok fs (buildDirPath env))

/-- The `clean` handler: resolve the build directory, `rmtree` it, recreate
it with `os.makedirs`, all inside `try`/`except`; result is the new
filesystem and the JSON payload `(status, message)`. -/
def clean_handler (env : Env) (fs : FS) (removable : Bool) :
    FS × (List Char × List Char) :=
  match rmtree (get_build_dir env fs).2 (get_build_dir env fs).1 removable with
  | .error e => ((get_build_dir env fs).2, (errorStatus, e))
  | .ok fs2 =>
    match makedirs_strict fs2 (get_build_dir env fs).1 with
    | .error e => (fs2, (errorStatus, e))
    | .ok fs3 => (fs3, (successStatus, ("Build directory cleaned successfully").toList))

/-- Filesystem effect of the `index` handler: it calls `get_build_dir` to
report the build status (reading the configuration and settings files does
not change the directory map). -/
def index_fs (env : Env) (fs : FS) : FS := (get_build_dir env fs).2

/-- Filesystem effect of the `save` handler: it only writes the settings
file — it never touches the build directory. -/
def save_fs (fs : FS) : FS := fs

/-- The `save` handler's response: unconditionally `{'status': 'success'}`. -/
def save_status : List Char := successStatus

/-- Filesystem effect of the `apply` handler on the directory map: it calls
`get_build_dir` before launching the child process (the external tool's own
writes inside the build directory are outside the model). -/
def apply_fs (env : Env) (fs : FS) : FS := (get_build_dir env fs).2

/-- Filesystem effect of the `build` handler, taken over the full
consumption of its streamed response: `generate` calls `get_build_dir`. -/
def build_fs (env : Env) (fs : FS) : FS := (get_build_dir env fs).2

/-- Filesystem effect of the `clean` handler. -/
def clean_fs (env : Env) (fs : FS) (removable : Bool) : FS :=
  (clean_handler env fs removable).1

/-! ## Claim theorems -/

/-- C2, counterexample: with the child-process launch failing (the exception
`subprocess.Popen` raises when the `cmake` binary is missing), the `build`
handler's generator does not return an error-status result: it has no
`try`/`except`, so the failure is re-raised (the `.error` escapes) and no
ok-result is produced, contradicting the claim that both handlers capture
launch failures. -/
theorem build_launch_failure_counterexample :
    generate (Except.error (("FileNotFoundError: cmake").toList)) =
      Except.error (("FileNotFoundError: cmake").toList) ∧
    (generate (Except.error (("FileNotFoundError: cmake").toList))).isOk = false :=
  ⟨rfl, rfl⟩

/-- C2 (amended): a launch failure inside `apply` is captured by its
`try`/`except` and returned as an error-status JSON payload carrying the
exception message; the `build` handler's generator has no handler, so the
same failure propagates out of it unhandled instead of being returned as a
result. -/
theorem launch_failure_handling (e : List Char) :
    apply_handler (Except.error e) = (errorStatus, e) ∧
    generate (Except.error e) = Except.error e :=
  ⟨rfl, rfl⟩

/-- C4: the configure invocation is the `cmake` executable, then the source
project path, then exactly one `-D<IDENTIFIER>=ON|OFF` flag per option in
mapping order (`ON` iff the option's value is true); in particular a mapping
with `FOO` set to false produces the flag `-DFOO=OFF`. -/
theorem apply_cmd_spec (pd : List Char) (opts : List (List Char × OptEntry))
    (dsc dsc2 : List Char) :
    (cmake_cmd pd opts).take 2 = [("cmake").toList, pd] ∧
    (cmake_cmd pd opts).drop 2 = opts.map optFlag ∧
    (cmake_cmd pd opts).length = 2 + opts.length ∧
    cmake_cmd pd [(("FOO").toList, ⟨dsc, false⟩)] =
      [("cmake").toList, pd, ("-DFOO=OFF").toList] ∧
    cmake_cmd pd [(("FOO").toList, ⟨dsc2, true⟩)] =
      [("cmake").toList, pd, ("-DFOO=ON").toList] := by
  refine ⟨rfl, rfl, ?_, rfl, rfl⟩
  rw [cmake_cmd]
  simp only [List.length_cons, List.length_map]
  omega

/-- C5: when the build's child process runs to completion, the streamed
output is the process output followed by exactly one trailing sentinel line:
the success sentinel iff the exit code is zero, the failure sentinel
otherwise. -/
theorem build_sentinel_spec (ls : List (List Char)) (rc : Int) :
    ∃ out, generate (Except.ok (ls, rc)) = Except.ok out ∧
      out.dropLast = ls ∧
      out.getLast? = some (if rc = 0 then successSentinel else failSentinel) ∧
      out.length = ls.length + 1 := by
  refine ⟨ls ++ [if rc = 0 then successSentinel else failSentinel], rfl, ?_, ?_, ?_⟩
  · simp
  · simp
  · simp

/-- C6: saving a mapping to the settings store and loading it back returns
the same mapping — same identifiers, same descriptions, same boolean
values. -/
theorem settings_roundtrip (opts : List (List Char × OptEntry))
    (store : Option (List (List Char × OptEntry))) (k : List Char) :
    load_saved_options (save_cmake_options opts store) = some opts ∧
    lookupA ((load_saved_options (save_cmake_options opts store)).getD []) k =
      lookupA opts k :=
  ⟨rfl, rfl⟩

/-- C10: the index handler's merge only ever overwrites the `value` field —
the identifiers, their order, and every displayed description are exactly
those of the scanner output, never the snapshot's. -/
theorem merge_preserves_descriptions (opts : List (List Char × OptEntry))
    (saved : Option (List (List Char × OptEntry))) :
    (mergeSaved opts saved).map (fun p => (p.1, p.2.description)) =
      opts.map (fun p => (p.1, p.2.description)) := by
  cases saved with
  | none => rfl
  | some s =>
    rw [mergeSaved]
    by_cases hs : s = []
    · rw [if_pos hs]
    · rw [if_neg hs, List.map_map]
      refine List.map_congr_left ?_
      intro p _
      cases h : lookupA s p.1 <;> simp [Function.comp, h]

/-- C3: merging scanner output with a loaded snapshot gives, per identifier:
the snapshot's value with the scanner's description when present in both,
the scanner's default when the identifier is absent from the snapshot, and
nothing at all for identifiers present only in the snapshot (the lookup
equation returns `none` exactly when the scanner does).  The concrete
conjunct is the spec's scenario: scanner `A↦true, B↦false` merged with
snapshot `A↦false` displays `A↦false, B↦false`. -/
theorem index_merge_spec (opts s : List (List Char × OptEntry)) (k : List Char) :
    lookupA (mergeSaved opts (some s)) k =
      (lookupA opts k).map (fun e =>
        (⟨e.description,
          match lookupA s k with
          | some sv => sv.value
          | none => e.value⟩ : OptEntry)) ∧
    mergeSaved
        [(("A").toList, ⟨("da").toList, true⟩), (("B").toList, ⟨("db").toList, false⟩)]
        (some [(("A").toList, ⟨("da").toList, false⟩)]) =
      [(("A").toList, ⟨("da").toList, false⟩), (("B").toList, ⟨("db").toList, false⟩)] := by
  refine ⟨?_, by decide⟩
  rw [mergeSaved]
  by_cases hs : s = []
  · subst hs
    rw [if_pos rfl]
    cases lookupA opts k <;> rfl
  · rw [if_neg hs]
    induction opts with
    | nil => rfl
    | cons p opts ih =>
      obtain ⟨k0, e0⟩ := p
      rw [List.map_cons]
      dsimp only
      by_cases hk : k = k0
      · subst hk
        cases hsv : lookupA s k with
        | some sv =>
          dsimp only
          rw [lookupA, if_pos rfl, lookupA, if_pos rfl, Option.map_some']
        | none =>
          dsimp only
          rw [lookupA, if_pos rfl, lookupA, if_pos rfl, Option.map_some']
      · cases hsv : lookupA s k0 with
        | some sv =>
          dsimp only
          rw [lookupA, if_neg hk, lookupA, if_neg hk]
          exact ih
        | none =>
          dsimp only
          rw [lookupA, if_neg hk, lookupA, if_neg hk]
          exact ih

/-- C1, counterexample: a configuration text carrying two well-formed
`option(...)` declarations (and no malformed ones) for which the scanner
returns a single entry, not two — the two declarations share the identifier
`FOO`, and the dictionary collapses them.  `findAll` is the formal count of
well-formed declaration matches in the text. -/
theorem scanner_count_counterexample :
    (findAll (("option(FOO \"a\" ON)\noption(FOO \"b\" OFF)").toList)).length = 2 ∧
    (read_cmake_options (("option(FOO \"a\" ON)\noption(FOO \"b\" OFF)").toList)).length
      = 1 := by
  decide

/-- C1 (amended): for configuration text laid out as well-formed option
declarations with pairwise distinct identifiers, separated (and surrounded)
by arbitrary `(`-free segments — in particular any malformed, `(`-free
declaration attempts — the scanner returns exactly one entry per
declaration, in order, each carrying the exact description string and a
default of true iff the final token is exactly `ON`; the junk contributes
nothing and no error is raised (the scanner is a total function). -/
theorem scanner_structured_text_spec (ps : List (List Char × Decl)) (tl : List Char)
    (hgood : GoodSeq ps tl)
    (hnd : (ps.map (fun p => p.2.name)).Nodup) :
    read_cmake_options (renderSeq ps tl) =
      ps.map (fun p => (p.2.name, (⟨p.2.desc, p.2.tok == onTok⟩ : OptEntry))) ∧
    (read_cmake_options (renderSeq ps tl)).length = ps.length := by
  have hfind := findAll_renderSeq ps tl hgood
  have hkeys : ((ps.map (fun p => (p.2.name, p.2.desc, p.2.tok))).map
      (fun m => m.1)).Nodup := by
    rw [List.map_map]
    exact hnd
  have hfold := dictFold_go_nodup (ps.map (fun p => (p.2.name, p.2.desc, p.2.tok))) []
    hkeys (fun m _ => rfl)
  constructor
  · rw [read_cmake_options, hfind, dictFold, hfold, List.nil_append, List.map_map]
    rfl
  · rw [read_cmake_options, hfind, dictFold, hfold, List.nil_append]
    simp

/-- A concrete structured text for instantiating the amended C1: the spec's
scenario (`FOO`/`ON`, `BAR`/`OFF`) with a malformed, parenthesis-free
declaration attempt between them. -/
def witnessSeq : List (List Char × Decl) :=
  [([], ⟨("FOO").toList, [' '], ("enable foo").toList, [' '], ("ON").toList⟩),
   (("\noption BAD \"x\" ON\n").toList,
    ⟨("BAR").toList, [' '], ("enable bar").toList, [' '], ("OFF").toList⟩)]

theorem scanner_structured_text_spec_witness :
    GoodSeq witnessSeq [] ∧
    (witnessSeq.map (fun p => p.2.name)).Nodup ∧
    read_cmake_options (renderSeq witnessSeq []) =
      witnessSeq.map (fun p => (p.2.name, (⟨p.2.desc, p.2.tok == onTok⟩ : OptEntry))) :=
  ⟨by decide, by decide,
    (scanner_structured_text_spec witnessSeq [] (by decide) (by decide)).1⟩

/-- C9: duplicated identifiers in the scanned text collapse to a single
entry whose description and default come from the last matching declaration
(`lastMatchVal`), positioned at the first occurrence (`firstKeys` dedups the
match identifiers keeping first occurrences); keys are therefore distinct.
The concrete conjunct shows two `FOO` declarations collapsing to one entry
with the second declaration's description `b` and default `false`. -/
theorem scanner_duplicate_semantics (content : List Char) (k : List Char) :
    (read_cmake_options content).map Prod.fst =
      firstKeys [] ((findAll content).map (fun m => m.1)) ∧
    lookupA (read_cmake_options content) k = lastMatchVal (findAll content) k ∧
    ((read_cmake_options content).map Prod.fst).Nodup ∧
    read_cmake_options (("option(FOO \"a\" ON) option(FOO \"b\" OFF)").toList) =
      [(("FOO").toList, ⟨("b").toList, false⟩)] := by
  refine ⟨?_, ?_, ?_, by decide⟩
  · rw [read_cmake_options, dictFold, dictFold_keys]
    rfl
  · rw [read_cmake_options, dictFold, dictFold_lookup]
    cases lastMatchVal (findAll content) k <;> rfl
  · rw [read_cmake_options, dictFold, dictFold_keys]
    have hnd := firstKeys_nodup ((findAll content).map (fun m => m.1)) []
    simpa using hnd.1

/-! ### Filesystem lemmas for the clean and build-directory claims -/

theorem append_singleton_not_pfx (p : List Char) (c : Char) :
    (p ++ [c]).isPrefixOf p = false := by
  induction p with
  | nil => rfl
  | cons a p ih => simp [List.isPrefixOf, ih]

theorem isUnder_self_false (p : List Char) : isUnder p p = false :=
  append_singleton_not_pfx p '/'

theorem fsExists_makedirs_self (fs : FS) (p : List Char) :
    fsExists (makedirs_exist_ok fs p) p = true := by
  rw [makedirs_exist_ok]
  cases h : fsExists fs p with
  | true => rw [if_pos rfl]; exact h
  | false =>
    rw [if_neg Bool.false_ne_true]
    show (lookupA (fs ++ [(p, [])]) p).isSome = true
    rw [lookupA_append, (containsKey_false_iff fs p).mp h]
    simp [lookupA]

theorem lookupA_removeTree (fs : FS) (p : List Char) :
    lookupA (fs.filter (fun q => !(q.1 == p || isUnder p q.1))) p = none := by
  induction fs with
  | nil => rfl
  | cons q fs ih =>
    obtain ⟨k0, v0⟩ := q
    rw [List.filter_cons]
    dsimp only
    cases hu : !(k0 == p || isUnder p k0) with
    | false =>
      rw [if_neg Bool.false_ne_true]
      exact ih
    | true =>
      rw [if_pos rfl]
      have hk : ¬p = k0 := by
        intro he
        subst he
        simp at hu
      rw [lookupA, if_neg hk]
      exact ih

theorem lookupA_append_fresh {fs : List (List Char × β)} {p : List Char}
    (h : lookupA fs p = none) (v : β) : lookupA (fs ++ [(p, v)]) p = some v := by
  rw [lookupA_append, h]
  simp [lookupA]

/-- The `clean` handler when removal fails (e.g. a locked file): the
exception is caught and an error-status payload returned; the directory map
is the one `get_build_dir` produced. -/
theorem clean_handler_fail (env : Env) (fs : FS) :
    clean_handler env fs false =
      (makedirs_exist_ok fs (buildDirPath env),
       (errorStatus, ("PermissionError").toList)) := by
  have hex : fsExists (makedirs_exist_ok fs (buildDirPath env)) (buildDirPath env) = true :=
    fsExists_makedirs_self fs (buildDirPath env)
  unfold clean_handler get_build_dir
  dsimp only
  unfold rmtree
  rw [if_pos hex, if_neg Bool.false_ne_true]

/-- The `clean` handler when removal succeeds: the tree under the build
directory is removed and the directory recreated empty, with a
success-status payload. -/
theorem clean_handler_ok (env : Env) (fs : FS) :
    clean_handler env fs true =
      ((makedirs_exist_ok fs (buildDirPath env)).filter
          (fun q => !(q.1 == buildDirPath env || isUnder (buildDirPath env) q.1)) ++
        [(buildDirPath env, [])],
       (successStatus, ("Build directory cleaned successfully").toList)) := by
  have hex : fsExists (makedirs_exist_ok fs (buildDirPath env)) (buildDirPath env) = true :=
    fsExists_makedirs_self fs (buildDirPath env)
  have hnone := lookupA_removeTree (makedirs_exist_ok fs (buildDirPath env)) (buildDirPath env)
  have hexf : fsExists ((makedirs_exist_ok fs (buildDirPath env)).filter
      (fun q => !(q.1 == buildDirPath env || isUnder (buildDirPath env) q.1)))
      (buildDirPath env) = false := by
    show (lookupA _ _).isSome = false
    rw [hnone]
    rfl
  unfold clean_handler get_build_dir
  dsimp only
  unfold rmtree
  rw [if_pos hex, if_pos rfl]
  dsimp only
  unfold makedirs_strict
  rw [if_neg (fun hc => Bool.false_ne_true (hexf.symm.trans hc))]

/-- C7: whenever `clean` reports success, the build directory exists in the
resulting filesystem, is empty (it maps to no entries and nothing in the
filesystem lies underneath it), and is the same path the handler resolved
before the call (`get_build_dir` returns the identical path before and
after); and `clean` is total — it always returns a success- or error-status
payload, never failing fatally. -/
theorem clean_spec (env : Env) (fs : FS) (removable : Bool) (fs' : FS)
    (st msg : List Char)
    (h : clean_handler env fs removable = (fs', (st, msg))) :
    (st = successStatus →
      lookupA fs' (buildDirPath env) = some [] ∧
      (∀ q ∈ fs', isUnder (buildDirPath env) q.1 = false) ∧
      fsExists fs' (buildDirPath env) = true ∧
      (get_build_dir env fs').1 = (get_build_dir env fs).1) ∧
    (st = successStatus ∨ st = errorStatus) := by
  cases removable with
  | false =>
    rw [clean_handler_fail] at h
    injection h with h1 h23
    injection h23 with h2 h3
    exact ⟨fun hst => absurd (h2.trans hst) (by decide), Or.inr h2.symm⟩
  | true =>
    rw [clean_handler_ok] at h
    injection h with h1 h23
    injection h23 with h2 h3
    rw [← h1]
    have hlook : lookupA ((makedirs_exist_ok fs (buildDirPath env)).filter
        (fun q => !(q.1 == buildDirPath env || isUnder (buildDirPath env) q.1)) ++
        [(buildDirPath env, [])]) (buildDirPath env) = some [] :=
      lookupA_append_fresh (lookupA_removeTree _ _) []
    refine ⟨fun _ => ⟨hlook, ?_, ?_, rfl⟩, Or.inl h2.symm⟩
    · intro q hq
      rcases List.mem_append.mp hq with hq | hq
      · have hf := List.of_mem_filter hq
        simp at hf
        exact hf.2
      · rcases List.mem_singleton.mp hq with rfl
        exact isUnder_self_false _
    · show (lookupA _ _).isSome = true
      rw [hlook]
      rfl

/-- A concrete environment for instantiating the clean specification. -/
def envW : Env := ⟨some (("/tmp").toList), ("/root").toList⟩

/-- Witness for C7 at a concrete environment and an empty filesystem. -/
theorem clean_spec_witness :
    lookupA (clean_handler envW [] true).1 (buildDirPath envW) = some [] ∧
    fsExists (clean_handler envW [] true).1 (buildDirPath envW) = true := by
  have h := clean_spec envW [] true (clean_handler envW [] true).1
    (clean_handler envW [] true).2.1 (clean_handler envW [] true).2.2 rfl
  have hs := h.1 (by decide)
  exact ⟨hs.1, hs.2.2.1⟩

/-- C8, counterexample: the `save` handler returns a success status but
never touches the build directory; starting from a filesystem in which the
build directory does not exist (the service can be started without ever
resolving it), the directory still does not exist when `save` returns. -/
theorem handlers_builddir_counterexample :
    save_status = successStatus ∧
    save_fs [] = ([] : FS) ∧
    fsExists ([] : FS)
      (buildDirPath ⟨some (("/tmp").toList), ("/root").toList⟩) = false :=
  ⟨rfl, rfl, rfl⟩

/-- C8 (amended): `index`, `apply`, `build` and `clean` each guarantee the
build directory exists when they return (on every path, success or error);
`save` leaves the filesystem untouched, so after `save` the directory
exists iff it existed before. -/
theorem handlers_builddir_amended (env : Env) (fs : FS) (removable : Bool) :
    fsExists (index_fs env fs) (buildDirPath env) = true ∧
    fsExists (apply_fs env fs) (buildDirPath env) = true ∧
    fsExists (build_fs env fs) (buildDirPath env) = true ∧
    fsExists (clean_fs env fs removable) (buildDirPath env) = true ∧
    save_fs fs = fs := by
  refine ⟨fsExists_makedirs_self fs _, fsExists_makedirs_self fs _,
    fsExists_makedirs_self fs _, ?_, rfl⟩
  cases removable with
  | false =>
    rw [clean_fs, clean_handler_fail]
    exact fsExists_makedirs_self fs _
  | true =>
    rw [clean_fs, clean_handler_ok]
    show (lookupA _ _).isSome = true
    rw [lookupA_append_fresh (lookupA_removeTree _ _) []]
    rfl

end CmakeConfigTool
